import Mathlib

/-!
Verification development for the `t` structured-text manipulation tool.

The development embeds the value model and the operators of the tool
(split, split-on-delimiter, dedupe-with-counts, columnate, and the
interactive preview's full-input decision) as executable Lean functions,
and proves the stated properties about them.

The operator files `split.rs`, `dedupe.rs`, `columnate.rs`, `noop.rs` and
the interactive driver `interactive.rs` are embedded from their sources.
The value model (`value.rs`), the AST (`ast.rs`), and the join, case,
sort, and selection operators are not part of the available sources; the
definitions for those carry a doc comment starting `Modelled from the
spec:` and follow the specification's wording.

Numbers in the tool are 64-bit binary floats; they are modelled here as
integers (the specification notes numbers are finite in normal operation,
and every number appearing in the verified operators is an integral
count), with decimal rendering standing in for the float's
shortest-round-trip rendering.
-/

/-- Modelled from the spec: `value.rs` is not in the sources. `Level` is the
ordered enumeration File < Line < Word < Char describing what the elements
of an array represent. -/
inductive Level where
  | File
  | Line
  | Word
  | Char
deriving DecidableEq, Repr

/-- Modelled from the spec: `split_into(level)` yields the level one step
finer (File→Line, Line→Word, Word→Char, Char→Char). -/
def Level.split_into : Level → Level
  | .File => .Line
  | .Line => .Word
  | .Word => .Char
  | .Char => .Char

/-- Modelled from the spec: `join_delimiter(level)` yields File→"\n",
Line→"\n", Word→" ", Char→"". -/
def Level.join_delimiter : Level → String
  | .File => "\n"
  | .Line => "\n"
  | .Word => " "
  | .Char => ""

/-- Modelled from the spec: `value.rs` is not in the sources. A `Value` is
a discriminated union of UTF-8 text, a number, and an ordered sequence of
values tagged with a `Level` (the Rust `Array { elements, level }` is
inlined into the `Array` constructor). -/
inductive Value where
  | Text (s : String)
  | Number (n : Int)
  | Array (elements : List Value) (level : Level)

mutual

/-- Modelled from the spec: `deep_copy` is a recursive clone preserving
structure and level exactly. -/
def Value.deepCopy : Value → Value
  | .Text s => .Text s
  | .Number n => .Number n
  | .Array es l => .Array (deepCopyList es) l

/-- Recursive clone of every element of an array. -/
def deepCopyList : List Value → List Value
  | [] => []
  | v :: vs => v.deepCopy :: deepCopyList vs

end

mutual

/-- Decision procedure for equality of values. -/
def decEqValue : (v w : Value) → Decidable (v = w)
  | .Text s, .Text t =>
    match decEq s t with
    | isTrue h => isTrue (h ▸ rfl)
    | isFalse h => isFalse (fun he => h (by cases he; rfl))
  | .Text _, .Number _ => isFalse (fun he => by cases he)
  | .Text _, .Array _ _ => isFalse (fun he => by cases he)
  | .Number _, .Text _ => isFalse (fun he => by cases he)
  | .Number m, .Number n =>
    match decEq m n with
    | isTrue h => isTrue (h ▸ rfl)
    | isFalse h => isFalse (fun he => h (by cases he; rfl))
  | .Number _, .Array _ _ => isFalse (fun he => by cases he)
  | .Array _ _, .Text _ => isFalse (fun he => by cases he)
  | .Array _ _, .Number _ => isFalse (fun he => by cases he)
  | .Array es le, .Array fs lf =>
    match decEqValueList es fs with
    | isTrue h =>
      match decEq le lf with
      | isTrue h2 => isTrue (by rw [h, h2])
      | isFalse h2 => isFalse (fun he => h2 (by cases he; rfl))
    | isFalse h => isFalse (fun he => h (by cases he; rfl))

/-- Decision procedure for equality of lists of values. -/
def decEqValueList : (vs ws : List Value) → Decidable (vs = ws)
  | [], [] => isTrue rfl
  | [], _ :: _ => isFalse (fun he => by cases he)
  | _ :: _, [] => isFalse (fun he => by cases he)
  | v :: vs, w :: ws =>
    match decEqValue v w with
    | isTrue h =>
      match decEqValueList vs ws with
      | isTrue h2 => isTrue (by rw [h, h2])
      | isFalse h2 => isFalse (fun he => h2 (by cases he; rfl))
    | isFalse h => isFalse (fun he => h (by cases he; rfl))

end

instance : DecidableEq Value := decEqValue

/-- Rust `char::is_whitespace`: the Unicode White_Space property, by scalar
value. -/
def rustIsWhitespace (c : Char) : Bool :=
  let n := c.toNat
  (0x09 ≤ n && n ≤ 0x0D) || n == 0x20 || n == 0x85 || n == 0xA0 ||
    n == 0x1680 || (0x2000 ≤ n && n ≤ 0x200A) || n == 0x2028 ||
    n == 0x2029 || n == 0x202F || n == 0x205F || n == 0x3000

/-- Splits a character list at every character satisfying `p`, keeping
empty pieces (the separators are dropped). The accumulator holds the
current piece reversed. -/
def splitCharsAux (p : Char → Bool) : List Char → List Char → List (List Char)
  | [], acc => [acc.reverse]
  | c :: rest, acc =>
    if p c then acc.reverse :: splitCharsAux p rest []
    else splitCharsAux p rest (c :: acc)

/-- Rust `str::split_whitespace`: pieces between runs of Unicode
whitespace, with empty pieces removed. -/
def rustSplitWhitespace (s : String) : List String :=
  ((splitCharsAux rustIsWhitespace s.data []).filter (· ≠ [])).map
    (fun cs => String.mk cs)

/-- Rust `str::lines`: splits at `\n`, stripping a `\r` that directly
precedes the `\n`; a final piece without a line ending is kept as is, and
a trailing line ending produces no extra empty line. -/
def rustLinesAux : List Char → List Char → List String
  | [], acc => if acc.isEmpty then [] else [String.mk acc.reverse]
  | '\n' :: rest, acc =>
    let line :=
      match acc with
      | '\r' :: acc2 => acc2.reverse
      | _ => acc.reverse
    String.mk line :: rustLinesAux rest []
  | c :: rest, acc => rustLinesAux rest (c :: acc)

/-- Rust `str::lines` over a string. -/
def rustLines (s : String) : List String :=
  rustLinesAux s.data []

/-- Splits at each leftmost non-overlapping occurrence of the nonempty
pattern `d`, keeping empty pieces (Rust `str::split` with a string
pattern). The accumulator holds the current piece reversed. -/
def splitOnAux (d : List Char) : List Char → List Char → List (List Char)
  | [], acc => [acc.reverse]
  | c :: cs, acc =>
    if d.isPrefixOf (c :: cs) then
      acc.reverse :: splitOnAux d (cs.drop (d.length - 1)) []
    else
      splitOnAux d cs (c :: acc)
termination_by cs _ => cs.length
decreasing_by
  · simp only [List.length_drop, List.length_cons]
    omega
  · simp only [List.length_cons]
    omega

/-- Rust `str::split` with a string pattern: for an empty pattern the
result is an empty piece, each character, and an empty piece; otherwise
pieces between leftmost non-overlapping occurrences. -/
def rustSplitStr (s : String) (d : String) : List String :=
  if d.data = [] then
    ("" :: s.data.map (fun c => String.mk [c])) ++ [""]
  else
    (splitOnAux d.data s.data []).map (fun cs => String.mk cs)

/-- Split mode of the `s` operator (`SplitMode` in `split.rs`). The source
has a third `Csv` variant backed by the external `csv` crate; no claim
concerns it and it is not embedded. -/
inductive SplitMode where
  | Whitespace
  | Delimiter (d : String)

/-- `split_line` from `split.rs`: whitespace mode splits on whitespace
runs, delimiter mode on each occurrence of the delimiter. -/
def split_line (s : String) (mode : SplitMode) : List Value :=
  match mode with
  | .Whitespace => (rustSplitWhitespace s).map Value.Text
  | .Delimiter d => (rustSplitStr s d).map Value.Text

/-- `split_text` from `split.rs`: text is split according to the given
level (File→lines, Line→words per mode, Word→characters, Char→kept
whole), and the resulting array is tagged with `level.split_into`. -/
def split_text (s : String) (level : Level) (mode : SplitMode) : Value :=
  let new_level := level.split_into
  let elements : List Value :=
    match level with
    | .File => (rustLines s).map Value.Text
    | .Line => split_line s mode
    | .Word => s.data.map (fun c => Value.Text (String.mk [c]))
    | .Char => [Value.Text s]
  Value.Array elements new_level

/-- `Split::apply_to_element` from `split.rs`: arrays and numbers are left
unchanged, text is split at the containing array's level. The Rust
function returns `Result` but every branch is `Ok`. -/
def Split.apply_to_element (mode : SplitMode) (value : Value) (level : Level) :
    Value :=
  match value with
  | .Array es l => .Array es l
  | .Text s => split_text s level mode
  | .Number n => .Number n

/-- `Split::apply` from `split.rs`: maps `apply_to_element` over an array
using the array's own level, treats bare text as a word (splitting it into
characters), and passes anything else through. Every Rust branch is
`Ok`. -/
def Split.apply (mode : SplitMode) : Value → Value
  | .Array es l => .Array (es.map (fun v => Split.apply_to_element mode v l)) l
  | .Text s => split_text s .Word mode
  | other => other

mutual

/-- `SplitDelim::apply` from `split.rs`: recurses into arrays (preserving
their level), splits every text leaf on the delimiter into a Word-level
array, and leaves numbers unchanged. Every Rust branch is `Ok`. -/
def SplitDelim.apply (delimiter : String) : Value → Value
  | .Array es l => .Array (splitDelimList delimiter es) l
  | .Text s => .Array ((rustSplitStr s delimiter).map Value.Text) .Word
  | .Number n => .Number n

/-- Elementwise `SplitDelim::apply` over the elements of an array. -/
def splitDelimList (delimiter : String) : List Value → List Value
  | [] => []
  | v :: vs => SplitDelim.apply delimiter v :: splitDelimList delimiter vs

end

/-- Decimal digit character for a value below ten. -/
def digitChar : Nat → Char
  | 0 => '0'
  | 1 => '1'
  | 2 => '2'
  | 3 => '3'
  | 4 => '4'
  | 5 => '5'
  | 6 => '6'
  | 7 => '7'
  | 8 => '8'
  | 9 => '9'
  | _ => '*'

/-- Decimal digits with explicit fuel (the recursion depth is bounded by
the number of digits, so any fuel above the value itself is enough). -/
def natReprAux : Nat → Nat → List Char
  | 0, _ => []
  | fuel + 1, n =>
    if n < 10 then [digitChar n]
    else natReprAux fuel (n / 10) ++ [digitChar (n % 10)]

/-- Decimal digits of a natural number, most significant first. -/
def natReprList (n : Nat) : List Char :=
  natReprAux (n + 1) n

/-- Decimal rendering of a natural number. -/
def natRepr (n : Nat) : String :=
  String.mk (natReprList n)

/-- Modelled from the spec: canonical decimal rendering of a number
(integers show no decimal point); the model's numbers are integers, so
this renders the sign followed by the decimal digits. -/
def intRepr (n : Int) : String :=
  if n < 0 then "-" ++ natRepr n.natAbs else natRepr n.natAbs

mutual

/-- `value_to_key` from `dedupe.rs`: prefix-tagged recursive key encoding,
`T:` + text, `N:` + number rendering, `A:[` + comma-joined element keys +
`]`. -/
def value_to_key : Value → String
  | .Text s => "T:" ++ s
  | .Number n => "N:" ++ intRepr n
  | .Array es _ => "A:[" ++ String.intercalate "," (valueKeyList es) ++ "]"

/-- Keys of the elements of an array, in order. -/
def valueKeyList : List Value → List String
  | [] => []
  | v :: vs => value_to_key v :: valueKeyList vs

end

/-- One step of the dedupe pass in `dedupe_with_counts_by` (`dedupe.rs`):
the `HashMap`-from-key-to-index plus order-preserving entry vector is
modelled as an insertion-ordered association list, so a seen key bumps the
count of its unique entry and an unseen key appends a fresh `(k, 1, v)`
entry at the end. -/
def insertEntry (entries : List (String × Nat × Value)) (k : String)
    (v : Value) : List (String × Nat × Value) :=
  match entries with
  | [] => [(k, 1, v)]
  | e :: rest =>
    if e.1 = k then (e.1, e.2.1 + 1, e.2.2) :: rest
    else e :: insertEntry rest k v

/-- The single pass of `dedupe_with_counts_by` over the input elements. -/
def dedupeEntries (key_fn : Value → String) (elements : List Value) :
    List (String × Nat × Value) :=
  elements.foldl (fun acc v => insertEntry acc (key_fn v) v) []

/-- The sort order of `dedupe_with_counts_by`:
`b.0.cmp(&a.0).then(a.1.cmp(&b.1))` is not `Greater` exactly when `a`'s
count is larger, or the counts are equal and `a`'s first-seen index is not
larger. -/
def dedupeOrder (a b : Nat × Nat × Value) : Prop :=
  b.1 < a.1 ∨ (a.1 = b.1 ∧ a.2.1 ≤ b.2.1)

instance : DecidableRel dedupeOrder := fun a b => by
  unfold dedupeOrder; infer_instance

/-- The sorted `(count, first-seen index, output)` triples of
`dedupe_with_counts_by`. The Rust `sort_by` is a stable sort, and a stable
sort's output is uniquely determined by its total preorder comparator, so
the stable insertion sort used here agrees with it (here the comparator is
even antisymmetric, the first-seen indices being distinct). In the source
`output_fn` returns `Result` and is unwrapped; both instantiations used
here are total. -/
def dedupeSorted (key_fn : Value → String) (output_fn : Value → Value)
    (elements : List Value) : List (Nat × Nat × Value) :=
  (((dedupeEntries key_fn elements).enum).map
    (fun p => (p.2.2.1, p.1, output_fn p.2.2.2))).insertionSort dedupeOrder

/-- A `[count, value]` output row of dedupe (`dedupe.rs`); the count is
`count as f64`, modelled as the integer count. -/
def dedupeRow (e : Nat × Nat × Value) : Value :=
  .Array [.Number (Int.ofNat e.1), e.2.2] .Word

/-- `dedupe_with_counts_by` from `dedupe.rs`: single counting pass, sort
by count descending tie-broken by first-seen index, rows `[count, value]`
at level Word inside a Line-level array. -/
def dedupe_with_counts_by (key_fn : Value → String) (output_fn : Value → Value)
    (elements : List Value) : Value :=
  .Array ((dedupeSorted key_fn output_fn elements).map dedupeRow) .Line

/-- `DedupeWithCounts::apply` from `dedupe.rs`: dedupes an array keyed by
`value_to_key` outputting deep copies; any non-array value passes
through. -/
def DedupeWithCounts.apply : Value → Value
  | .Array es _ =>
    dedupe_with_counts_by value_to_key Value.deepCopy es
  | other => other

/-- Specification function: the number of input elements whose canonical
key is `k`. -/
def keyCount (key_fn : Value → String) (xs : List Value) (k : String) : Nat :=
  xs.countP (fun v => key_fn v == k)

/-- Specification function: the first input element whose canonical key is
`k`. -/
def firstWithKey (key_fn : Value → String) (xs : List Value) (k : String) :
    Option Value :=
  xs.find? (fun v => key_fn v == k)

/-- Specification function: the distinct keys of a list in first-seen
order. -/
def firstSeen (ks : List String) : List String :=
  ks.foldl (fun acc k => if k ∈ acc then acc else acc ++ [k]) []

/-- Lookup of the unique entry with a given key in the association list of
dedupe entries. -/
def lookupKey (entries : List (String × Nat × Value)) (k : String) :
    Option (Nat × Value) :=
  (entries.find? (fun e => e.1 == k)).map (fun e => e.2)

mutual

/-- Modelled from the spec: the text rendering of a value (`Display` in
the missing `value.rs`): text renders as itself, a number in canonical
decimal, an array as its elements' renderings joined by the array level's
default delimiter, recursively. -/
def Value.display : Value → String
  | .Text s => s
  | .Number n => intRepr n
  | .Array es l => String.intercalate l.join_delimiter (displayList es)

/-- Renderings of the elements of an array, in order. -/
def displayList : List Value → List String
  | [] => []
  | v :: vs => v.display :: displayList vs

end

/-- Display width of a cell in Unicode scalars (`cell.chars().count()`). -/
def strWidth (s : String) : Nat :=
  s.data.length

/-- The cell grid of `Columnate::apply` (`columnate.rs`): each array row
becomes its elements' renderings, any other row a single cell. -/
def Columnate.rowStrings (es : List Value) : List (List String) :=
  es.map (fun row =>
    match row with
    | .Array inner _ => inner.map Value.display
    | other => [other.display])

/-- Maximum display width of column `j` over all rows (`columnate.rs`
computes the same maxima with a running `col_widths` vector; a row without
a cell at `j` contributes 0). -/
def Columnate.colWidth (rows : List (List String)) (j : Nat) : Nat :=
  (rows.map (fun r => ((r[j]?).map strWidth).getD 0)).foldr max 0

/-- Pads a cell with trailing spaces to the column width (saturating, as
in the source). -/
def Columnate.padCell (cell : String) (width : Nat) : String :=
  cell ++ String.mk (List.replicate (width - strWidth cell) ' ')

/-- `Columnate::apply` from `columnate.rs`: renders the cell grid, leaves
an empty array unchanged, pads every cell except the last of its row to
the column width, and rebuilds Word-level rows inside an array at the
input's level. Every Rust branch is `Ok`. -/
def Columnate.apply : Value → Value
  | .Array es l =>
    let rows := Columnate.rowStrings es
    if rows = [] then .Array es l
    else
      let elements := rows.map (fun row =>
        Value.Array (row.enum.map (fun p =>
          if p.1 = row.length - 1 then Value.Text p.2
          else Value.Text (Columnate.padCell p.2 (Columnate.colWidth rows p.1))))
          .Word)
      .Array elements l
  | other => other

/-- Modelled from the spec: `ast.rs` is not in the sources. A selection
item is an integer index (negative counts from the end) or a
`start:end:step` slice with any part omitted. -/
inductive SelectItem where
  | Index (i : Int)
  | Slice (start stop step : Option Int)

/-- Modelled from the spec: a selection is a comma-separated list of
items; the items' outputs concatenate. -/
structure Selection where
  items : List SelectItem

/-- Modelled from the spec: a negative index counts from the end. -/
def resolveIndex (len : Nat) (i : Int) : Int :=
  if i < 0 then i + len else i

/-- Modelled from the spec: the indices selected by a Python-style
half-open slice, with out-of-range bounds clamped; a negative step
reverses the default start and end. Step 0 is rejected at compile time in
the source and yields no indices here. -/
def sliceIndices (len : Nat) (start stop : Option Int) (step : Int) :
    List Nat :=
  if step > 0 then
    let s := max (resolveIndex len (start.getD 0)) 0
    let e := resolveIndex len (stop.getD len)
    (List.range len).filter
      (fun (j : Nat) =>
        s ≤ (j : Int) && (j : Int) < e && ((j : Int) - s) % step == 0)
  else if step < 0 then
    let s := min (resolveIndex len (start.getD ((len : Int) - 1))) ((len : Int) - 1)
    let e := (stop.map (resolveIndex len)).getD (-1)
    ((List.range len).filter
      (fun (j : Nat) =>
        (j : Int) ≤ s && e < (j : Int) && (s - (j : Int)) % (-step) == 0)).reverse
  else []

/-- Modelled from the spec: the elements selected by one item;
out-of-range indices are silently skipped, slice bounds clamp. -/
def applyItem (es : List Value) : SelectItem → List Value
  | .Index i =>
    let j := resolveIndex es.length i
    if 0 ≤ j then (es[j.toNat]?).toList else []
  | .Slice st en sp =>
    (sliceIndices es.length st en (sp.getD 1)).filterMap (fun j => es[j]?)

/-- Modelled from the spec: a selection concatenates its items'
outputs. -/
def applySelection (sel : Selection) (es : List Value) : List Value :=
  (sel.items.map (fun it => applyItem es it)).flatten

/-- Modelled from the spec: the bare selection operator indexes the focus
array and reassembles it at the same level; scalars pass through. -/
def Select.apply (sel : Selection) : Value → Value
  | .Array es l => .Array (applySelection sel es) l
  | other => other

/-- Modelled from the spec: `extract_key` lives in the missing `group.rs`.
It applies the selection to an array row; the dedupe tests show a
single-index selection yields the selected element itself, so a singleton
result is unwrapped and any other result is an array at the row's level.
Non-array rows pass through. -/
def extract_key (sel : Selection) : Value → Value
  | .Array es l =>
    match applySelection sel es with
    | [v] => v
    | vs => .Array vs l
  | other => other

/-- `DedupeSelectionWithCounts::apply` from `dedupe.rs`: dedupes an array
keyed by the canonical key of the selection-extracted part of each row,
outputting the extracted part; any non-array value passes through. -/
def DedupeSelectionWithCounts.apply (sel : Selection) : Value → Value
  | .Array es _ =>
    dedupe_with_counts_by (fun v => value_to_key (extract_key sel v))
      (extract_key sel) es
  | other => other

mutual

/-- Modelled from the spec: the `l` operator (missing `case.rs`)
lowercases every leaf text; numbers are untouched and arrays keep their
shape and level. -/
def Lowercase.apply : Value → Value
  | .Text s => .Text (String.mk (s.data.map Char.toLower))
  | .Number n => .Number n
  | .Array es l => .Array (lowercaseList es) l

/-- Elementwise lowercasing of the elements of an array. -/
def lowercaseList : List Value → List Value
  | [] => []
  | v :: vs => Lowercase.apply v :: lowercaseList vs

end

/-- Modelled from the spec: the `j` operator (missing `join.rs`). The help
text in `main.rs` documents `j` as `flatten into single list`, and spec
scenario 1 (`sjldo:20`) requires that reading; spec §4.3's alternative
description of `j` as join-each-row-to-text contradicts that scenario, so
the flattening reading is embedded: each array element contributes its
elements, scalars stay, and the result level is one step finer. -/
def Join.apply : Value → Value
  | .Array es l =>
    .Array ((es.map (fun v =>
      match v with
      | .Array inner _ => inner
      | other => [other])).flatten) l.split_into
  | other => other

/-- Code-point comparison of text, lexicographic by Unicode scalar. -/
def cmpCharList : List Char → List Char → Ordering
  | [], [] => .eq
  | [], _ :: _ => .lt
  | _ :: _, [] => .gt
  | c :: cs, d :: ds =>
    match compare c.toNat d.toNat with
    | .eq => cmpCharList cs ds
    | o => o

/-- Modelled from the spec: the kind ordinal of the sort's total order
(the spec fixes only that the order is by kind ordinal first; the concrete
assignment is a model choice, and every claim compares like kinds). -/
def kindOrdinal : Value → Nat
  | .Number _ => 0
  | .Text _ => 1
  | .Array _ _ => 2

mutual

/-- Modelled from the spec: the sort's total order over heterogeneous
values (missing `sort.rs`): kind ordinal first, then numbers by value,
text lexicographic by scalar, arrays lexicographic over elements. -/
def cmpValue : Value → Value → Ordering
  | .Number m, .Number n => compare m n
  | .Text s, .Text t => cmpCharList s.data t.data
  | .Array es _, .Array fs _ => cmpValueList es fs
  | a, b => compare (kindOrdinal a) (kindOrdinal b)

/-- Lexicographic comparison of arrays, element by element. -/
def cmpValueList : List Value → List Value → Ordering
  | [], [] => .eq
  | [], _ :: _ => .lt
  | _ :: _, [] => .gt
  | v :: vs, w :: ws =>
    match cmpValue v w with
    | .eq => cmpValueList vs ws
    | o => o

end

/-- Modelled from the spec: the `o` operator (missing `sort.rs`) sorts an
array descending under the total order; a stable descending sort keeps `a`
before `b` exactly when `a` is not below `b`. -/
def SortDesc.apply : Value → Value
  | .Array es l =>
    .Array (es.insertionSort (fun a b => cmpValue a b ≠ Ordering.lt)) l
  | other => other

/-- The compiled transforms of the pipeline. `split`, `splitDelim`, the
two dedupes, and `columnate` are embedded from the sources; `join`,
`lowercase`, `sortDesc`, and `select` are spec-modelled; `noop` is the `;`
separator (`noop.rs`). -/
inductive Transform where
  | split (mode : SplitMode)
  | splitDelim (delimiter : String)
  | join
  | lowercase
  | dedupeWithCounts
  | dedupeSelectionWithCounts (sel : Selection)
  | sortDesc
  | select (sel : Selection)
  | columnate
  | noop

/-- `Transform::apply` dispatch; every embedded transform is total (each
Rust implementation returns `Ok` on all paths). -/
def Transform.apply : Transform → Value → Value
  | .split mode, v => Split.apply mode v
  | .splitDelim d, v => SplitDelim.apply d v
  | .join, v => Join.apply v
  | .lowercase, v => Lowercase.apply v
  | .dedupeWithCounts, v => DedupeWithCounts.apply v
  | .dedupeSelectionWithCounts sel, v => DedupeSelectionWithCounts.apply sel v
  | .sortDesc, v => SortDesc.apply v
  | .select sel, v => Select.apply sel v
  | .columnate, v => Columnate.apply v
  | .noop, v => v

/-- `requires_full_input`: the dedupes (`dedupe.rs`) and columnate
(`columnate.rs`) override the trait default to `true`; per the spec the
flag is also true for sort and false (the trait default) for everything
else embedded here. -/
def Transform.requires_full_input : Transform → Bool
  | .dedupeWithCounts => true
  | .dedupeSelectionWithCounts _ => true
  | .columnate => true
  | .sortDesc => true
  | _ => false

/-- Sequential execution of a pipeline (`interpreter::run` of the missing
`interpreter.rs`): each transform replaces the root with its result; the
embedded transforms never fail. -/
def runTransforms (ops : List Transform) (v : Value) : Value :=
  ops.foldl (fun acc op => op.apply acc) v

/-- The root array held by the interactive mode (the Rust
`Array { elements, level }` of the missing `value.rs`). -/
structure RArray where
  elements : List Value
  level : Level

/-- Modelled from the spec: `deep_copy` of an array clones every element
and preserves the level. -/
def RArray.deep_copy (a : RArray) : RArray :=
  ⟨deepCopyList a.elements, a.level⟩

/-- Modelled from the spec: `truncated_copy(n)` keeps the first `n`
elements, deep-copied, preserving the level. -/
def RArray.truncated_copy (a : RArray) (n : Nat) : RArray :=
  ⟨deepCopyList (a.elements.take n), a.level⟩

/-- The largest batch size, `usize::MAX` on a 64-bit host. -/
def USIZE_MAX : Nat := 2 ^ 64 - 1

/-- `PREVIEW_BATCH_SIZES` from `interactive.rs`: adaptive batch sizes for
preview execution. -/
def PREVIEW_BATCH_SIZES : List Nat := [100, 500, 2000, USIZE_MAX]

/-- The batch sizes tried by `InteractiveMode::try_execute`
(`interactive.rs`): a single unbounded batch when any compiled operator
requires full input, the adaptive sizes otherwise. -/
def previewBatchSizes (ops : List Transform) : List Nat :=
  if ops.any (fun op => op.requires_full_input) then [USIZE_MAX]
  else PREVIEW_BATCH_SIZES

/-- The input fed to one preview execution in
`InteractiveMode::try_execute` (`interactive.rs`): a deep copy of the full
root when the batch covers it, a truncated deep copy otherwise. -/
def previewInput (input : RArray) (batch_size : Nat) : RArray :=
  if input.elements.length ≤ batch_size then input.deep_copy
  else input.truncated_copy batch_size

/-- The compiled pipeline of the programme `sjldo:20`. -/
def programme_sjldo20 : List Transform :=
  [.split .Whitespace, .join, .lowercase, .dedupeWithCounts, .sortDesc,
   .select ⟨[SelectItem.Slice none (some 20) none]⟩]

/-- Modelled from the spec: the input loader produces a Line-level array
of the file's text lines; the scenario file holds the single line
`The quick the Brown fox the quick`. -/
def c7Input : Value :=
  .Array [.Text "The quick the Brown fox the quick"] .Line

/-- Numeric value of a decimal digit character. -/
def digitVal (c : Char) : Nat :=
  c.toNat - 48

/-- Decodes a most-significant-first digit list back to a natural
number. -/
def digitsToNat (l : List Char) : Nat :=
  l.foldl (fun acc c => 10 * acc + digitVal c) 0

/-- The fuel of `natReprAux` is irrelevant once it exceeds the value. -/
theorem natReprAux_irrel : ∀ (f f' n : Nat), n < f → n < f' →
    natReprAux f n = natReprAux f' n := by
  intro f
  induction f with
  | zero => intro f' n h _; omega
  | succ f ih =>
    intro f' n h h'
    cases f' with
    | zero => omega
    | succ f2 =>
      simp only [natReprAux]
      by_cases h10 : n < 10
      · simp [h10]
      · simp only [h10, if_false]
        have hlt : n / 10 < n := Nat.div_lt_self (by omega) (by omega)
        rw [ih f2 (n / 10) (by omega) (by omega)]

/-- Unfolding equation of `natReprList`. -/
theorem natReprList_eq (n : Nat) : natReprList n =
    if n < 10 then [digitChar n]
    else natReprList (n / 10) ++ [digitChar (n % 10)] := by
  unfold natReprList
  simp only [natReprAux]
  by_cases h : n < 10
  · simp [h]
  · simp only [h, if_false]
    have hlt : n / 10 < n := Nat.div_lt_self (by omega) (by omega)
    rw [natReprAux_irrel n (n / 10 + 1) (n / 10) (by omega) (by omega)]
    rfl

/-- Reading the digits of a snoc. -/
theorem digitsToNat_append (a : List Char) (c : Char) :
    digitsToNat (a ++ [c]) = 10 * digitsToNat a + digitVal c := by
  simp [digitsToNat, List.foldl_append]

/-- A digit character decodes to its digit. -/
theorem digitVal_digitChar {d : Nat} (h : d < 10) :
    digitVal (digitChar d) = d := by
  interval_cases d <;> rfl

/-- Decoding the digit list of `n` gives back `n`. -/
theorem digitsToNat_natReprList : ∀ n, digitsToNat (natReprList n) = n := by
  intro n
  induction n using Nat.strong_induction_on with
  | _ n ih =>
    rw [natReprList_eq]
    by_cases h : n < 10
    · simp [h, digitsToNat, digitVal_digitChar h]
    · have hlt : n / 10 < n := Nat.div_lt_self (by omega) (by omega)
      simp only [h, if_false]
      rw [digitsToNat_append, ih (n / 10) hlt,
        digitVal_digitChar (Nat.mod_lt n (by norm_num))]
      omega

/-- The digit list of `n` starts with a digit character. -/
theorem natReprList_head : ∀ n, ∃ d rest, d < 10 ∧
    natReprList n = digitChar d :: rest := by
  intro n
  induction n using Nat.strong_induction_on with
  | _ n ih =>
    rw [natReprList_eq]
    by_cases h : n < 10
    · exact ⟨n, [], h, by simp [h]⟩
    · have hlt : n / 10 < n := Nat.div_lt_self (by omega) (by omega)
      obtain ⟨d, rest, hd, he⟩ := ih (n / 10) hlt
      exact ⟨d, rest ++ [digitChar (n % 10)], hd, by simp [h, he]⟩

/-- Decimal rendering of naturals is injective. -/
theorem natRepr_injective {m n : Nat} (h : natRepr m = natRepr n) : m = n := by
  have h2 : natReprList m = natReprList n := by
    have := congrArg String.data h
    simpa [natRepr] using this
  calc m = digitsToNat (natReprList m) := (digitsToNat_natReprList m).symm
    _ = digitsToNat (natReprList n) := by rw [h2]
    _ = n := digitsToNat_natReprList n

/-- A digit character is never the minus sign. -/
theorem digitChar_ne_minus {d : Nat} (h : d < 10) : digitChar d ≠ '-' := by
  interval_cases d <;> decide

/-- Decimal rendering of integers is injective. -/
theorem intRepr_injective : ∀ {m n : Int}, intRepr m = intRepr n → m = n := by
  intro m n h
  unfold intRepr at h
  have minus_case : ∀ a b : Nat, ("-" ++ natRepr a) ≠ natRepr b := by
    intro a b hc
    obtain ⟨d, rest, hd, he⟩ := natReprList_head b
    have := congrArg String.data hc
    rw [String.data_append] at this
    have hb : (natRepr b).data = digitChar d :: rest := by
      simp [natRepr, he]
    rw [hb] at this
    have : '-' = digitChar d := by
      have h3 := congrArg List.head? this
      simpa using h3
    exact digitChar_ne_minus hd this.symm
  by_cases hm : m < 0 <;> by_cases hn : n < 0
  · simp only [hm, hn, if_true] at h
    have h2 : (natRepr m.natAbs).data = (natRepr n.natAbs).data := by
      have := congrArg String.data h
      rw [String.data_append, String.data_append] at this
      exact List.append_cancel_left this
    have := natRepr_injective (String.ext h2)
    omega
  · simp only [hm, hn, if_true, if_false] at h
    exact absurd h (minus_case _ _)
  · simp only [hm, hn, if_true, if_false] at h
    exact absurd h.symm (minus_case _ _)
  · simp only [hm, hn, if_false] at h
    have := natRepr_injective h
    omega

mutual

/-- Deep copy is the identity on the value tree. -/
theorem Value.deepCopy_eq : (v : Value) → v.deepCopy = v
  | .Text _ => rfl
  | .Number _ => rfl
  | .Array es _ => by rw [Value.deepCopy, deepCopyList_eq es]

/-- Deep copy of every element is the identity on the list. -/
theorem deepCopyList_eq : (vs : List Value) → deepCopyList vs = vs
  | [] => rfl
  | v :: vs => by rw [deepCopyList, Value.deepCopy_eq v, deepCopyList_eq vs]

end

/-- The character data of a text key. -/
theorem key_text_data (s : String) :
    (value_to_key (.Text s)).data = 'T' :: ':' :: s.data := by
  rw [(by simp [value_to_key] : value_to_key (.Text s) = "T:" ++ s),
    String.data_append]
  rfl

/-- The character data of a number key. -/
theorem key_number_data (n : Int) :
    (value_to_key (.Number n)).data = 'N' :: ':' :: (intRepr n).data := by
  rw [(by simp [value_to_key] : value_to_key (.Number n) = "N:" ++ intRepr n),
    String.data_append]
  rfl

/-- The character data of an array key starts with the `A:[` tag. -/
theorem key_array_data (es : List Value) (l : Level) :
    (value_to_key (.Array es l)).data = 'A' :: ':' :: '[' ::
      ((String.intercalate "," (valueKeyList es)).data ++ [']']) := by
  rw [(by simp [value_to_key] :
      value_to_key (.Array es l) =
        "A:[" ++ String.intercalate "," (valueKeyList es) ++ "]"),
    String.data_append, String.data_append]
  simp

/-- C6 (counterexample): the canonical key encoding does confuse values —
the arrays `["a,T:b"]` and `["a","b"]` are distinct but share the key
`A:[T:a,T:b]`, and dedupe merges them into a single row of count 2. -/
theorem value_to_key_collision :
    value_to_key (.Array [Value.Text "a,T:b"] .Word) =
        value_to_key (.Array [Value.Text "a", Value.Text "b"] .Word) ∧
      Value.Array [Value.Text "a,T:b"] Level.Word ≠
        Value.Array [Value.Text "a", Value.Text "b"] Level.Word ∧
      DedupeWithCounts.apply (.Array
          [.Array [Value.Text "a,T:b"] .Word,
           .Array [Value.Text "a", Value.Text "b"] .Word] .Line) =
        .Array [.Array [.Number 2, .Array [Value.Text "a,T:b"] .Word] .Word]
          .Line :=
  ⟨by decide, by decide, by decide⟩

/-- C6 (amended): the canonical key encoding never confuses the three
kinds, and is injective on texts and on numbers; only arrays can collide
(as the counterexample shows). -/
theorem value_to_key_kinds_and_scalars :
    (∀ s t, value_to_key (.Text s) = value_to_key (.Text t) → s = t) ∧
    (∀ m n : Int,
      value_to_key (.Number m) = value_to_key (.Number n) → m = n) ∧
    (∀ s n, value_to_key (.Text s) ≠ value_to_key (.Number n)) ∧
    (∀ s es l, value_to_key (.Text s) ≠ value_to_key (.Array es l)) ∧
    (∀ n es l, value_to_key (.Number n) ≠ value_to_key (.Array es l)) := by
  refine ⟨?_, ?_, ?_, ?_, ?_⟩
  · intro s t h
    have hd := congrArg String.data h
    rw [key_text_data, key_text_data] at hd
    injection hd with _ hd
    injection hd with _ hd
    exact String.ext hd
  · intro m n h
    have hd := congrArg String.data h
    rw [key_number_data, key_number_data] at hd
    injection hd with _ hd
    injection hd with _ hd
    exact intRepr_injective (String.ext hd)
  · intro s n h
    have hd := congrArg String.data h
    rw [key_text_data, key_number_data] at hd
    injection hd with h1 _
    exact absurd h1 (by decide)
  · intro s es l h
    have hd := congrArg String.data h
    rw [key_text_data, key_array_data] at hd
    injection hd with h1 _
    exact absurd h1 (by decide)
  · intro n es l h
    have hd := congrArg String.data h
    rw [key_number_data, key_array_data] at hd
    injection hd with h1 _
    exact absurd h1 (by decide)

/-- C7 (counterexample): over the scenario input, `sjldo:20` does not
render the claimed `3 the`, `2 quick`, `1 brown`, `1 fox` — the
descending sort puts `1 fox` before `1 brown`. -/
theorem sjldo20_claimed_output_false :
    Value.display (runTransforms programme_sjldo20 c7Input) ≠
      "3 the\n2 quick\n1 brown\n1 fox" := by
  decide

/-- C7 (amended): `sjldo:20` over the scenario input yields the rows
`[3 the]`, `[2 quick]`, `[1 fox]`, `[1 brown]` — count descending, and the
count-1 tie resolved by the descending value comparison (fox after brown
in text order, so first in descending order), not by first-seen order. -/
theorem sjldo20_actual_output :
    runTransforms programme_sjldo20 c7Input =
      .Array [.Array [.Number 3, .Text "the"] .Word,
              .Array [.Number 2, .Text "quick"] .Word,
              .Array [.Number 1, .Text "fox"] .Word,
              .Array [.Number 1, .Text "brown"] .Word] .Line ∧
    Value.display (runTransforms programme_sjldo20 c7Input) =
      "3 the\n2 quick\n1 fox\n1 brown" :=
  ⟨by decide, by decide⟩

/-- C8: split on a bare text treats it as a word: it returns a Char-level
array of one single-character text per character, never the unchanged
scalar. -/
theorem split_bare_text_to_chars (s : String) :
    Split.apply .Whitespace (.Text s) =
      .Array (s.data.map (fun c => Value.Text (String.mk [c]))) .Char ∧
    Split.apply .Whitespace (.Text s) ≠ .Text s := by
  constructor
  · simp [Split.apply, split_text, Level.split_into]
  · intro h
    simp [Split.apply, split_text, Level.split_into] at h

/-- Elementwise split-on-delimiter is the map of `SplitDelim::apply`. -/
theorem splitDelimList_eq_map (d : String) :
    ∀ vs, splitDelimList d vs = vs.map (SplitDelim.apply d)
  | [] => rfl
  | v :: vs => by
    rw [splitDelimList, splitDelimList_eq_map d vs]
    rfl

/-- C9: `S<delim>` recurses into nested arrays (applying itself to every
element while preserving the outer level and length), splits every text
leaf into a Word-level array regardless of context, and leaves numbers
unchanged. -/
theorem splitDelim_structure (d : String) :
    (∀ es l, ∃ out, SplitDelim.apply d (.Array es l) = .Array out l ∧
      out.length = es.length ∧ out = es.map (SplitDelim.apply d)) ∧
    (∀ s, SplitDelim.apply d (.Text s) =
      .Array ((rustSplitStr s d).map Value.Text) .Word) ∧
    (∀ n, SplitDelim.apply d (.Number n) = .Number n) := by
  refine ⟨fun es l => ⟨splitDelimList d es, ?_, ?_, splitDelimList_eq_map d es⟩,
    fun s => ?_, fun n => ?_⟩
  · simp [SplitDelim.apply]
  · rw [splitDelimList_eq_map]
    simp
  · simp [SplitDelim.apply]
  · simp [SplitDelim.apply]

/-- C1: the whitespace split maps each element in place (outer length and
level preserved), leaves arrays and numbers unchanged, splits text
elements at the array's level, and refines File→Line into lines,
Line→Word into whitespace-separated words, Word→Char into characters. -/
theorem split_level_aware : ∀ (es : List Value) (l : Level),
    (∃ out, Split.apply .Whitespace (.Array es l) = .Array out l ∧
      out.length = es.length ∧
      (∀ (i : Nat) arr l2, es[i]? = some (Value.Array arr l2) →
        out[i]? = some (Value.Array arr l2)) ∧
      (∀ (i : Nat) n, es[i]? = some (Value.Number n) →
        out[i]? = some (Value.Number n)) ∧
      (∀ (i : Nat) s, es[i]? = some (Value.Text s) →
        out[i]? = some (split_text s l .Whitespace))) ∧
    (∀ s, split_text s .File .Whitespace =
      .Array ((rustLines s).map Value.Text) .Line) ∧
    (∀ s, split_text s .Line .Whitespace =
      .Array ((rustSplitWhitespace s).map Value.Text) .Word) ∧
    (∀ s, split_text s .Word .Whitespace =
      .Array (s.data.map (fun c => Value.Text (String.mk [c]))) .Char) := by
  intro es l
  refine ⟨⟨es.map (fun v => Split.apply_to_element .Whitespace v l), rfl,
    by simp, ?_, ?_, ?_⟩, fun s => rfl, fun s => rfl, fun s => rfl⟩
  · intro i arr l2 h
    rw [List.getElem?_map, h]
    simp [Split.apply_to_element]
  · intro i n h
    rw [List.getElem?_map, h]
    simp [Split.apply_to_element]
  · intro i s h
    rw [List.getElem?_map, h]
    simp [Split.apply_to_element]

/-- C10: both dedupe transforms return a Line-level outer array of
Word-level `[count, value]` rows, whatever the input array's level was. -/
theorem dedupe_output_levels : ∀ (es : List Value) (l : Level)
    (sel : Selection),
    (∃ rows, DedupeWithCounts.apply (.Array es l) = .Array rows .Line ∧
      ∀ r ∈ rows, ∃ c v, r = .Array [.Number (Int.ofNat c), v] .Word) ∧
    (∃ rows,
      DedupeSelectionWithCounts.apply sel (.Array es l) = .Array rows .Line ∧
      ∀ r ∈ rows, ∃ c v, r = .Array [.Number (Int.ofNat c), v] .Word) := by
  intro es l sel
  constructor
  · refine ⟨(dedupeSorted value_to_key Value.deepCopy es).map dedupeRow,
      rfl, ?_⟩
    intro r hr
    obtain ⟨e, _, he⟩ := List.mem_map.mp hr
    exact ⟨e.1, e.2.2, he ▸ rfl⟩
  · refine ⟨(dedupeSorted (fun v => value_to_key (extract_key sel v))
      (extract_key sel) es).map dedupeRow, rfl, ?_⟩
    intro r hr
    obtain ⟨e, _, he⟩ := List.mem_map.mp hr
    exact ⟨e.1, e.2.2, he ▸ rfl⟩

/-- The dedupe pass over a snoc processes the last element last. -/
theorem dedupeEntries_snoc (kf : Value → String) (xs : List Value)
    (x : Value) :
    dedupeEntries kf (xs ++ [x]) =
      insertEntry (dedupeEntries kf xs) (kf x) x := by
  simp [dedupeEntries, List.foldl_append]

/-- Lookup in a cons of the entry association list. -/
theorem lookupKey_cons (k0 : String) (c0 : Nat) (v0 : Value)
    (rest : List (String × Nat × Value)) (k : String) :
    lookupKey ((k0, c0, v0) :: rest) k =
      if k0 = k then some (c0, v0) else lookupKey rest k := by
  by_cases h : k0 = k
  · subst h
    simp [lookupKey, List.find?]
  · have hb : (k0 == k) = false := beq_eq_false_iff_ne.mpr h
    simp [lookupKey, List.find?, hb, h]

/-- Inserting key `k` bumps the looked-up count of `k` (seeding it at 1
with the new value when absent). -/
theorem lookupKey_insertEntry_self :
    ∀ (e : List (String × Nat × Value)) (k : String) (x : Value),
    lookupKey (insertEntry e k x) k =
      some (match lookupKey e k with
        | some cv => (cv.1 + 1, cv.2)
        | none => (1, x)) := by
  intro e k x
  induction e with
  | nil => simp [insertEntry, lookupKey_cons, lookupKey]
  | cons e0 rest ih =>
    obtain ⟨k0, c0, v0⟩ := e0
    by_cases h : k0 = k
    · subst h
      simp [insertEntry, lookupKey_cons]
    · simp only [insertEntry, h, if_false, lookupKey_cons]
      rw [ih]

/-- Inserting key `k` leaves the lookup of any other key unchanged. -/
theorem lookupKey_insertEntry_ne :
    ∀ (e : List (String × Nat × Value)) (k : String) (x : Value)
    (k2 : String), k2 ≠ k →
    lookupKey (insertEntry e k x) k2 = lookupKey e k2 := by
  intro e k x k2 hne
  have hks : k ≠ k2 := Ne.symm hne
  induction e with
  | nil =>
    simp [insertEntry, lookupKey_cons, lookupKey, hks]
  | cons e0 rest ih =>
    obtain ⟨k0, c0, v0⟩ := e0
    by_cases h : k0 = k
    · subst h
      simp [insertEntry, lookupKey_cons, hks]
    · simp only [insertEntry, h, if_false, lookupKey_cons]
      by_cases h2 : k0 = k2
      · simp [h2]
      · simp [h2, ih]

/-- Inserting appends the key exactly when it is new. -/
theorem keys_insertEntry :
    ∀ (e : List (String × Nat × Value)) (k : String) (x : Value),
    (insertEntry e k x).map Prod.fst =
      if k ∈ e.map Prod.fst then e.map Prod.fst
      else e.map Prod.fst ++ [k] := by
  intro e k x
  induction e with
  | nil => simp [insertEntry]
  | cons e0 rest ih =>
    obtain ⟨k0, c0, v0⟩ := e0
    by_cases h : k0 = k
    · subst h
      simp [insertEntry]
    · have hks : k ≠ k0 := Ne.symm h
      simp only [insertEntry, h, if_false, List.map_cons]
      rw [ih]
      by_cases hm : k ∈ rest.map Prod.fst
      · simp [hm, hks]
      · simp [hm, hks]

/-- First-seen keys over a snoc. -/
theorem firstSeen_snoc (ks : List String) (k : String) :
    firstSeen (ks ++ [k]) =
      if k ∈ firstSeen ks then firstSeen ks else firstSeen ks ++ [k] := by
  simp [firstSeen, List.foldl_append]

/-- The entry keys are the input keys in first-seen order. -/
theorem keys_dedupeEntries (kf : Value → String) :
    ∀ xs : List Value,
    (dedupeEntries kf xs).map Prod.fst = firstSeen (xs.map kf) := by
  intro xs
  induction xs using List.reverseRecOn with
  | nil => rfl
  | append_singleton xs x ih =>
    have hmap : List.map kf (xs ++ [x]) = List.map kf xs ++ [kf x] := by
      simp
    rw [dedupeEntries_snoc, keys_insertEntry, hmap, firstSeen_snoc, ih]

/-- The entry keys never repeat. -/
theorem nodup_keys_dedupeEntries (kf : Value → String) :
    ∀ xs : List Value, ((dedupeEntries kf xs).map Prod.fst).Nodup := by
  intro xs
  induction xs using List.reverseRecOn with
  | nil => simp [dedupeEntries]
  | append_singleton xs x ih =>
    rw [dedupeEntries_snoc, keys_insertEntry]
    by_cases hm : kf x ∈ (dedupeEntries kf xs).map Prod.fst
    · simpa [hm] using ih
    · simp only [hm, if_false]
      rw [List.nodup_append]
      refine ⟨ih, List.nodup_singleton _, ?_⟩
      intro a ha hb
      rw [List.mem_singleton] at hb
      exact hm (hb ▸ ha)

/-- The entry of key `k` carries the count of `k`-keyed inputs and the
first such input. -/
theorem lookup_dedupeEntries (kf : Value → String) :
    ∀ (xs : List Value) (k : String),
    lookupKey (dedupeEntries kf xs) k =
      (firstWithKey kf xs k).map (fun v => (keyCount kf xs k, v)) := by
  intro xs
  induction xs using List.reverseRecOn with
  | nil => intro k; simp [dedupeEntries, lookupKey, firstWithKey, keyCount]
  | append_singleton xs x ih =>
    intro k
    rw [dedupeEntries_snoc]
    by_cases h : kf x = k
    · subst h
      rw [lookupKey_insertEntry_self, ih]
      cases hfw : firstWithKey kf xs (kf x) with
      | none =>
        have hc : keyCount kf xs (kf x) = 0 := by
          rw [keyCount, List.countP_eq_zero]
          intro v hv
          have := List.find?_eq_none.mp hfw v hv
          simpa using this
        have h2 : firstWithKey kf (xs ++ [x]) (kf x) = some x := by
          rw [firstWithKey, List.find?_append]
          rw [firstWithKey] at hfw
          rw [hfw]
          simp [List.find?]
        have h3 : keyCount kf (xs ++ [x]) (kf x) = 1 := by
          rw [keyCount, List.countP_append]
          rw [keyCount] at hc
          simp [hc, List.countP_cons]
        rw [h2, h3]
        simp
      | some v =>
        have h2 : firstWithKey kf (xs ++ [x]) (kf x) = some v := by
          rw [firstWithKey, List.find?_append]
          rw [firstWithKey] at hfw
          rw [hfw]
          simp
        have h3 : keyCount kf (xs ++ [x]) (kf x) =
            keyCount kf xs (kf x) + 1 := by
          rw [keyCount, keyCount, List.countP_append]
          simp [List.countP_cons]
        rw [h2, h3]
        simp
    · rw [lookupKey_insertEntry_ne _ _ _ _ (Ne.symm (by exact h)), ih]
      have h2 : firstWithKey kf (xs ++ [x]) k = firstWithKey kf xs k := by
        simp [firstWithKey, List.find?_append, h]
      have h3 : keyCount kf (xs ++ [x]) k = keyCount kf xs k := by
        simp [keyCount, List.countP_append, h]
      rw [h2, h3]

/-- Inserting one element grows the total count by one. -/
theorem sum_insertEntry :
    ∀ (e : List (String × Nat × Value)) (k : String) (x : Value),
    ((insertEntry e k x).map (fun p => p.2.1)).sum =
      ((e.map (fun p => p.2.1)).sum) + 1 := by
  intro e k x
  induction e with
  | nil => simp [insertEntry]
  | cons e0 rest ih =>
    obtain ⟨k0, c0, v0⟩ := e0
    by_cases h : k0 = k
    · subst h
      simp [insertEntry]
      omega
    · simp only [insertEntry, h, if_false, List.map_cons, List.sum_cons, ih]
      omega

/-- The entry counts sum to the input length. -/
theorem sum_dedupeEntries (kf : Value → String) :
    ∀ xs : List Value,
    ((dedupeEntries kf xs).map (fun p => p.2.1)).sum = xs.length := by
  intro xs
  induction xs using List.reverseRecOn with
  | nil => simp [dedupeEntries]
  | append_singleton xs x ih =>
    rw [dedupeEntries_snoc, sum_insertEntry, ih]
    simp

/-- With nodup keys, membership determines the lookup. -/
theorem lookup_of_mem_nodup :
    ∀ (e : List (String × Nat × Value)) (k : String) (c : Nat) (v : Value),
    (e.map Prod.fst).Nodup → (k, c, v) ∈ e → lookupKey e k = some (c, v) := by
  intro e
  induction e with
  | nil => simp
  | cons e0 rest ih =>
    intro k c v hnd hm
    obtain ⟨k0, c0, v0⟩ := e0
    rw [List.map_cons, List.nodup_cons] at hnd
    rcases List.mem_cons.mp hm with he | hm2
    · simp only [Prod.mk.injEq] at he
      obtain ⟨rfl, rfl, rfl⟩ := he
      simp [lookupKey_cons]
    · have hne : k0 ≠ k := by
        intro hh
        subst hh
        exact hnd.1 (List.mem_map.mpr ⟨_, hm2, rfl⟩)
      rw [lookupKey_cons, if_neg hne]
      exact ih k c v hnd.2 hm2

/-- Membership in a first-seen fold. -/
theorem mem_firstSeen_foldl :
    ∀ (ks : List String) (acc : List String) (k : String),
    (k ∈ ks.foldl
      (fun acc k => if k ∈ acc then acc else acc ++ [k]) acc) ↔
      k ∈ acc ∨ k ∈ ks := by
  intro ks
  induction ks with
  | nil => simp
  | cons k0 ks ih =>
    intro acc k
    simp only [List.foldl_cons, ih, List.mem_cons]
    by_cases h : k0 ∈ acc
    · simp only [h, if_true]
      constructor
      · rintro (ha | hk)
        · exact Or.inl ha
        · exact Or.inr (Or.inr hk)
      · rintro (ha | rfl | hk)
        · exact Or.inl ha
        · exact Or.inl h
        · exact Or.inr hk
    · simp only [h, if_false, List.mem_append, List.mem_singleton]
      constructor
      · rintro ((ha | rfl) | hk)
        · exact Or.inl ha
        · exact Or.inr (Or.inl rfl)
        · exact Or.inr (Or.inr hk)
      · rintro (ha | rfl | hk)
        · exact Or.inl (Or.inl ha)
        · exact Or.inl (Or.inr rfl)
        · exact Or.inr hk

/-- A key is first-seen exactly when it occurs. -/
theorem mem_firstSeen (ks : List String) (k : String) :
    k ∈ firstSeen ks ↔ k ∈ ks := by
  rw [firstSeen, mem_firstSeen_foldl]
  simp

/-- One entry per distinct key. -/
theorem length_dedupeEntries (kf : Value → String) (xs : List Value) :
    (dedupeEntries kf xs).length = ((xs.map kf).dedup).length := by
  have hperm : ((dedupeEntries kf xs).map Prod.fst).Perm ((xs.map kf).dedup) := by
    have hnd : (firstSeen (xs.map kf)).Nodup := by
      have := nodup_keys_dedupeEntries kf xs
      rwa [keys_dedupeEntries] at this
    rw [keys_dedupeEntries]
    refine (List.perm_ext_iff_of_nodup hnd (List.nodup_dedup _)).mpr ?_
    intro a
    rw [mem_firstSeen, List.mem_dedup]
  have := hperm.length_eq
  simpa using this

/-- C2: dedupe-with-counts yields one row per distinct canonical key (the
order indices are exactly the first-seen positions, each once); each row
carries the key's input count and the first-seen element with that key
(deep copy being the identity); and rows are ordered by count descending
with ties broken by first-seen order. -/
theorem dedupe_with_counts_rows_spec : ∀ (es : List Value) (l : Level),
    ∃ rows : List (Nat × Nat × Value),
      DedupeWithCounts.apply (.Array es l) =
        .Array (rows.map dedupeRow) .Line ∧
      rows.length = (firstSeen (es.map value_to_key)).length ∧
      (∀ r ∈ rows, ∃ k,
        (firstSeen (es.map value_to_key))[r.2.1]? = some k ∧
        r.1 = keyCount value_to_key es k ∧
        firstWithKey value_to_key es k = some r.2.2) ∧
      (rows.map (fun r => r.2.1)).Perm
        (List.range (firstSeen (es.map value_to_key)).length) ∧
      List.Pairwise
        (fun a b => b.1 < a.1 ∨ (a.1 = b.1 ∧ a.2.1 < b.2.1)) rows := by
  intro es l
  haveI : IsTotal (Nat × Nat × Value) dedupeOrder :=
    ⟨fun a b => by unfold dedupeOrder; omega⟩
  haveI : IsTrans (Nat × Nat × Value) dedupeOrder :=
    ⟨fun a b c hab hbc => by
      unfold dedupeOrder at hab hbc ⊢
      omega⟩
  have hperm : (dedupeSorted value_to_key Value.deepCopy es).Perm
      ((dedupeEntries value_to_key es).enum.map
        (fun p => (p.2.2.1, p.1, Value.deepCopy p.2.2.2))) :=
    List.perm_insertionSort _ _
  have hkeys := keys_dedupeEntries value_to_key es
  have hlen : (dedupeEntries value_to_key es).length =
      (firstSeen (es.map value_to_key)).length := by
    rw [← hkeys]
    simp
  have hordperm : ((dedupeSorted value_to_key Value.deepCopy es).map
      (fun r => r.2.1)).Perm
      (List.range (firstSeen (es.map value_to_key)).length) := by
    refine (hperm.map (fun r => r.2.1)).trans ?_
    rw [List.map_map]
    have hcomp : ((fun (r : Nat × Nat × Value) => r.2.1) ∘
        (fun (p : Nat × (String × Nat × Value)) =>
          (p.2.2.1, p.1, Value.deepCopy p.2.2.2))) =
        (Prod.fst : Nat × (String × Nat × Value) → Nat) := rfl
    rw [hcomp, List.enum_map_fst, hlen]
  refine ⟨dedupeSorted value_to_key Value.deepCopy es, rfl, ?_, ?_,
    hordperm, ?_⟩
  · rw [hperm.length_eq, List.length_map, List.enum_length, hlen]
  · intro r hr
    have hr2 := hperm.mem_iff.mp hr
    obtain ⟨p, hp, hpr⟩ := List.mem_map.mp hr2
    have hpe : (dedupeEntries value_to_key es)[p.1]? = some p.2 :=
      List.mem_enum_iff_getElem?.mp hp
    have hmem : p.2 ∈ dedupeEntries value_to_key es := List.getElem?_mem hpe
    have hl := lookup_of_mem_nodup _ p.2.1 p.2.2.1 p.2.2.2
      (nodup_keys_dedupeEntries _ _) hmem
    have hlk := lookup_dedupeEntries value_to_key es p.2.1
    rw [hl] at hlk
    subst hpr
    refine ⟨p.2.1, ?_, ?_, ?_⟩
    · rw [← hkeys]
      simp [List.getElem?_map, hpe]
    · cases hfw : firstWithKey value_to_key es p.2.1 with
      | none =>
        rw [hfw] at hlk
        simp at hlk
      | some v =>
        rw [hfw] at hlk
        simp at hlk
        rw [hlk]
    · cases hfw : firstWithKey value_to_key es p.2.1 with
      | none =>
        rw [hfw] at hlk
        simp at hlk
      | some v =>
        rw [hfw] at hlk
        simp at hlk
        have hv : p.2.2.2 = v := by rw [hlk]
        simp [Value.deepCopy_eq, hv, hfw]
  · have hs : List.Pairwise dedupeOrder
        (dedupeSorted value_to_key Value.deepCopy es) :=
      List.sorted_insertionSort dedupeOrder _
    have hnd : ((dedupeSorted value_to_key Value.deepCopy es).map
        (fun r => r.2.1)).Nodup :=
      hordperm.symm.nodup (List.nodup_range _)
    have hne : List.Pairwise (fun a b => a.2.1 ≠ b.2.1)
        (dedupeSorted value_to_key Value.deepCopy es) :=
      List.pairwise_map.mp hnd
    exact (hs.and hne).imp (fun hh => by
      obtain ⟨hab, hneq⟩ := hh
      unfold dedupeOrder at hab
      omega)

/-- C5: dedupe-with-counts preserves the input multiset size — the counts
sum to the input length — and produces exactly one row per distinct
canonical key. -/
theorem dedupe_preserves_multiset_counts : ∀ (es : List Value) (l : Level),
    ∃ rows : List (Nat × Nat × Value),
      DedupeWithCounts.apply (.Array es l) =
        .Array (rows.map dedupeRow) .Line ∧
      (rows.map (fun r => r.1)).sum = es.length ∧
      rows.length = ((es.map value_to_key).dedup).length := by
  intro es l
  have hperm : (dedupeSorted value_to_key Value.deepCopy es).Perm
      ((dedupeEntries value_to_key es).enum.map
        (fun p => (p.2.2.1, p.1, Value.deepCopy p.2.2.2))) :=
    List.perm_insertionSort _ _
  refine ⟨dedupeSorted value_to_key Value.deepCopy es, rfl, ?_, ?_⟩
  · rw [(hperm.map (fun r => r.1)).sum_eq, List.map_map]
    have hcomp : ((fun (r : Nat × Nat × Value) => r.1) ∘
        (fun (p : Nat × (String × Nat × Value)) =>
          (p.2.2.1, p.1, Value.deepCopy p.2.2.2))) =
        ((fun (e : String × Nat × Value) => e.2.1) ∘
          (Prod.snd : Nat × (String × Nat × Value) → String × Nat × Value)) :=
      rfl
    rw [hcomp, ← List.map_map, List.enum_map_snd, sum_dedupeEntries]
  · rw [hperm.length_eq, List.length_map, List.enum_length,
      length_dedupeEntries]

/-- A member is bounded by the running maximum. -/
theorem le_foldr_max : ∀ (l : List Nat) (a : Nat), a ∈ l →
    a ≤ l.foldr max 0 := by
  intro l
  induction l with
  | nil => simp
  | cons b t ih =>
    intro a ha
    rcases List.mem_cons.mp ha with rfl | ht
    · rw [List.foldr_cons]
      exact Nat.le_max_left _ _
    · have := ih a ht
      rw [List.foldr_cons]
      omega

/-- Every cell of column `j` is at most the column width. -/
theorem cell_le_colWidth (rows : List (List String)) (i j : Nat)
    (row : List String) (cell : String) (hrow : rows[i]? = some row)
    (hcell : row[j]? = some cell) :
    strWidth cell ≤ Columnate.colWidth rows j := by
  apply le_foldr_max
  refine List.mem_map.mpr ⟨row, List.getElem?_mem hrow, ?_⟩
  rw [hcell]
  rfl

/-- Padding to at least the cell's width gives exactly the target
width. -/
theorem strWidth_padCell {cell : String} {w : Nat}
    (h : strWidth cell ≤ w) :
    strWidth (Columnate.padCell cell w) = w := by
  have hdata : (Columnate.padCell cell w).data =
      cell.data ++ List.replicate (w - strWidth cell) ' ' := by
    rw [Columnate.padCell, String.data_append]
  rw [strWidth, hdata, List.length_append, List.length_replicate]
  simp only [strWidth] at h ⊢
  omega

/-- C3: columnate requires full input; on a nonempty array it keeps the
outer length and level, renders each row as a Word-level array of cells,
pads every cell but the row's last with trailing spaces to exactly the
maximum display width (in Unicode scalars) of its column, and leaves each
row's last cell unpadded; over the name/age example the rows render as
`name  age`, `alice 30`, `bob   25`. -/
theorem columnate_spec :
    (∀ (es : List Value) (l : Level), es ≠ [] →
      ∃ out : List Value,
        Columnate.apply (.Array es l) = .Array out l ∧
        out.length = es.length ∧
        (∀ (i : Nat) row, (Columnate.rowStrings es)[i]? = some row →
          ∃ cells : List Value, out[i]? = some (.Array cells .Word) ∧
            cells.length = row.length ∧
            (∀ (j : Nat) cell, row[j]? = some cell → j + 1 < row.length →
              cells[j]? = some (.Text (Columnate.padCell cell
                (Columnate.colWidth (Columnate.rowStrings es) j))) ∧
              strWidth (Columnate.padCell cell
                  (Columnate.colWidth (Columnate.rowStrings es) j)) =
                Columnate.colWidth (Columnate.rowStrings es) j) ∧
            (∀ (j : Nat) cell, row[j]? = some cell → j + 1 = row.length →
              cells[j]? = some (.Text cell)))) ∧
    Transform.requires_full_input .columnate = true ∧
    (match Columnate.apply (.Array [
        .Array [Value.Text "name", Value.Text "age"] .Word,
        .Array [Value.Text "alice", Value.Text "30"] .Word,
        .Array [Value.Text "bob", Value.Text "25"] .Word] .Line) with
      | .Array rows _ => rows.map Value.display
      | _ => []) = ["name  age", "alice 30", "bob   25"] := by
  refine ⟨?_, rfl, by decide⟩
  intro es l hne
  have hrows : Columnate.rowStrings es ≠ [] := by
    simp [Columnate.rowStrings, hne]
  refine ⟨(Columnate.rowStrings es).map (fun row =>
    Value.Array (row.enum.map (fun p =>
      if p.1 = row.length - 1 then Value.Text p.2
      else Value.Text (Columnate.padCell p.2
        (Columnate.colWidth (Columnate.rowStrings es) p.1)))) .Word),
    ?_, ?_, ?_⟩
  · simp only [Columnate.apply]
    rw [if_neg hrows]
  · simp [Columnate.rowStrings]
  · intro i row hrow
    refine ⟨row.enum.map (fun p =>
      if p.1 = row.length - 1 then Value.Text p.2
      else Value.Text (Columnate.padCell p.2
        (Columnate.colWidth (Columnate.rowStrings es) p.1))), ?_, ?_, ?_, ?_⟩
    · rw [List.getElem?_map, hrow]
      rfl
    · simp [List.enum_length]
    · intro j cell hcell hj
      have he : row.enum[j]? = some (j, cell) := by
        rw [List.getElem?_enum, hcell]
        rfl
      have hne2 : j ≠ row.length - 1 := by omega
      constructor
      · rw [List.getElem?_map, he]
        simp only [Option.map_some']
        rw [if_neg hne2]
      · exact strWidth_padCell (cell_le_colWidth _ i j row cell hrow hcell)
    · intro j cell hcell hj
      have he : row.enum[j]? = some (j, cell) := by
        rw [List.getElem?_enum, hcell]
        rfl
      have heq : j = row.length - 1 := by omega
      rw [List.getElem?_map, he]
      simp only [Option.map_some']
      rw [if_pos heq]

/-- C4: `requires_full_input` is true for both dedupes and for columnate,
and whenever any compiled transform requires full input the interactive
preview tries only the unbounded batch, feeding a deep copy of the full
root (never a truncated prefix). -/
theorem full_input_preview_never_truncates (ops : List Transform)
    (input : RArray) (h : ops.any Transform.requires_full_input = true)
    (hlen : input.elements.length ≤ USIZE_MAX) :
    Transform.requires_full_input .dedupeWithCounts = true ∧
    (∀ sel, Transform.requires_full_input
      (.dedupeSelectionWithCounts sel) = true) ∧
    Transform.requires_full_input .columnate = true ∧
    previewBatchSizes ops = [USIZE_MAX] ∧
    ∀ b ∈ previewBatchSizes ops,
      previewInput input b = input.deep_copy ∧
      (previewInput input b).elements = input.elements := by
  have hbatch : previewBatchSizes ops = [USIZE_MAX] := by
    simp [previewBatchSizes, h]
  refine ⟨rfl, fun sel => rfl, rfl, hbatch, ?_⟩
  intro b hb
  rw [hbatch, List.mem_singleton] at hb
  subst hb
  have hfull : previewInput input USIZE_MAX = input.deep_copy := by
    simp [previewInput, hlen]
  refine ⟨hfull, ?_⟩
  rw [hfull]
  simp [RArray.deep_copy, deepCopyList_eq]

/-- Witness for C4 at a concrete pipeline and input. -/
theorem full_input_preview_never_truncates_witness :
    previewInput ⟨[Value.Text "a"], Level.Line⟩ USIZE_MAX =
      RArray.deep_copy ⟨[Value.Text "a"], Level.Line⟩ ∧
    (previewInput ⟨[Value.Text "a"], Level.Line⟩ USIZE_MAX).elements =
      [Value.Text "a"] := by
  obtain ⟨_, _, _, hbatch, hall⟩ :=
    full_input_preview_never_truncates [Transform.dedupeWithCounts]
      ⟨[Value.Text "a"], Level.Line⟩ (by decide) (by decide)
  exact hall USIZE_MAX (by rw [hbatch]; exact List.mem_singleton.mpr rfl)
